import Mathlib

/-!
Verification development for the text-processing pipeline in `nlp_pipeline.py`.

The Python source is shallowly embedded: strings are Lean `String`s (lists of
characters), Python dicts are association lists with newest-entry-first
precedence (extensionally the same lookup behaviour as a Python dict whose
entries are overwritten in place), the interactive `input()` prompt of manual
mode is a response stream `Nat → String` indexed by a prompt counter, and the
on-disk manual tag cache is the `file` field of an explicit pipeline state
(JSON serialisation is treated as the identity on the key/value map, as the
persistence format is out of scope).  Character classes follow the ASCII
reading of Python's `re` classes and `str` methods.
-/

namespace Nlp


/-- Character predicate for Python's whitespace class `\s` (ASCII part). -/
def pyIsSpace (c : Char) : Bool :=
  c = ' ' || c = '\t' || c = '\n' || c = '\r' || c = '\x0b' || c = '\x0c'

/-- Character predicate for `[A-Za-z]`. -/
def isAlphaChar (c : Char) : Bool :=
  (65 ≤ c.toNat && c.toNat ≤ 90) || (97 ≤ c.toNat && c.toNat ≤ 122)

/-- Character predicate for `[0-9]` (Python `\d`, ASCII). -/
def isDigitChar (c : Char) : Bool :=
  48 ≤ c.toNat && c.toNat ≤ 57

/-- Character predicate for Python's word class `\w` (ASCII part). -/
def isWordChar (c : Char) : Bool :=
  isAlphaChar c || isDigitChar c || c = '_'

/-- ASCII lowercasing of one character, as Python's `str.lower` acts on ASCII. -/
def lowerChar (c : Char) : Char :=
  if 65 ≤ c.toNat && c.toNat ≤ 90 then Char.ofNat (c.toNat + 32) else c

/-- ASCII uppercasing of one character, as Python's `str.upper` acts on ASCII. -/
def upperChar (c : Char) : Char :=
  if 97 ≤ c.toNat && c.toNat ≤ 122 then Char.ofNat (c.toNat - 32) else c

/-- Python `str.lower` (ASCII model). -/
def pyLower (s : String) : String :=
  ⟨s.data.map lowerChar⟩

/-- Python `str.upper` (ASCII model). -/
def pyUpper (s : String) : String :=
  ⟨s.data.map upperChar⟩

/-- Removal of leading and trailing whitespace from a character list. -/
def stripBoth (l : List Char) : List Char :=
  ((l.dropWhile pyIsSpace).reverse.dropWhile pyIsSpace).reverse

/-- Python `str.strip()` (ASCII model). -/
def pyStrip (s : String) : String :=
  ⟨stripBoth s.data⟩

/-- Lookup in an association list, newest entry first; models Python `d[k]` /
`k in d` on the dictionaries used by the pipeline. -/
def dlookup : List (String × String) → String → Option String
  | [], _ => none
  | (a, b) :: d, k => if a = k then some b else dlookup d k

/-- Store a binding, models Python `d[k] = v`: the new entry shadows any older
entry for the same key under `dlookup`. -/
def dinsert (d : List (String × String)) (k v : String) : List (String × String) :=
  (k, v) :: d

/-- The fixed stop-word set `DEFAULT_STOPWORDS` of the source. -/
def DEFAULT_STOPWORDS : List String :=
  ["a", "an", "the", "and", "or", "but", "if", "then", "else", "for", "to", "of", "in", "on", "at", "by", "with", "as",
   "is", "are", "was", "were", "be", "been", "being", "this", "that", "these", "those", "it", "its", "they", "their",
   "we", "our", "you", "your", "i", "me", "my", "he", "she", "him", "her", "them", "from", "can", "could", "may", "might",
   "will", "would", "should", "do", "does", "did", "not", "so", "many", "often", "each", "after", "before", "still"]

/-- The built-in fallback lemma dictionary `FALLBACK_LEMMA_DICT` of the source. -/
def FALLBACK_LEMMA_DICT : List (String × String) :=
  [("helps", "help"), ("computers", "computer"), ("apps", "app"), ("results", "result"), ("students", "student"),
   ("sentences", "sentence"), ("words", "word"), ("parts", "part"), ("processing", "process"), ("systems", "system"),
   ("documents", "document"), ("questions", "question"), ("starts", "start"), ("assigns", "assign"), ("reduces", "reduce"),
   ("affects", "affect"), ("includes", "include"), ("meanings", "meaning"), ("running", "run")]

/-- The fixed closed POS tag set `VALID_POS` of the source. -/
def VALID_POS : List String :=
  ["NOUN", "VERB", "ADJ", "ADV", "PRON", "DET", "ADP", "CONJ", "NUM", "PUNCT", "OTHER"]

/-- The determiner set `COMMON_DET` of the source. -/
def COMMON_DET : List String :=
  ["a", "an", "the", "this", "that", "these", "those"]

/-- The preposition set `COMMON_ADP` of the source. -/
def COMMON_ADP : List String :=
  ["in", "on", "at", "by", "with", "for", "to", "of", "from", "as"]

/-- The conjunction set `COMMON_CONJ` of the source. -/
def COMMON_CONJ : List String :=
  ["and", "or", "but"]

/-- The pronoun set `COMMON_PRON` of the source. -/
def COMMON_PRON : List String :=
  ["i", "me", "my", "you", "your", "he", "him", "her", "she", "it", "its", "we", "our", "they", "them", "their"]

/-- Suffix test on character lists (`str.endswith`). -/
def endsWithL (l suf : List Char) : Bool :=
  decide (suf <:+ l)

/-- Python `re.fullmatch(r"[A-Za-z]+", tok)` viewed as a Boolean: a nonempty
all-alphabetic character list. -/
def isPureAlpha (l : List Char) : Bool :=
  !l.isEmpty && l.all isAlphaChar

/-- The ordered suffix rules of `lemmatize_token`, applied to the lowercased
token `key`; first matching rule wins (source lines 81–88). -/
def suffixLemma (key : List Char) : List Char :=
  if endsWithL key ['i', 'e', 's'] && decide (key.length > 3) then key.take (key.length - 3) ++ ['y']
  else if endsWithL key ['i', 'n', 'g'] && decide (key.length > 5) then key.take (key.length - 3)
  else if endsWithL key ['e', 'd'] && decide (key.length > 4) then key.take (key.length - 2)
  else if endsWithL key ['s'] && decide (key.length > 3) && !endsWithL key ['s', 's'] then key.take (key.length - 1)
  else key

/-- The source's `lemmatize_token(tok, lemma_dict)`: external dictionary lookup,
then fallback dictionary lookup, then (for purely alphabetic tokens) the suffix
rules, else the lowercased token. -/
def lemmatize_token (tok : String) (lemma_dict : List (String × String)) : String :=
  match dlookup lemma_dict (pyLower tok) with
  | some v => v
  | none =>
    match dlookup FALLBACK_LEMMA_DICT (pyLower tok) with
    | some v => v
    | none => if isPureAlpha tok.data then ⟨suffixLemma (pyLower tok).data⟩ else pyLower tok

/-- The source's `is_stopword(tok)`: case-insensitive membership in the fixed
stop-word set. -/
def is_stopword (tok : String) : Bool :=
  DEFAULT_STOPWORDS.contains (pyLower tok)

/-- Python `re.fullmatch(r"[^\w\s]", tok)` viewed as a Boolean: a single
character that is neither a word character nor whitespace. -/
def isSingleNonWord (tok : String) : Bool :=
  match tok.data with
  | [c] => !isWordChar c && !pyIsSpace c
  | _ => false

/-- Python `re.fullmatch(r"\d+(?:\.\d+)?", tok)` viewed as a Boolean: digits,
optionally followed by a dot and more digits. -/
def isNumLit (l : List Char) : Bool :=
  let ds := l.takeWhile isDigitChar
  let rest := l.dropWhile isDigitChar
  !ds.isEmpty &&
    (rest.isEmpty ||
      (match rest with
       | '.' :: frac => !frac.isEmpty && frac.all isDigitChar
       | _ => false))

/-- Python `re.fullmatch(r"[A-Za-z]+(?:'[A-Za-z]+)?", tok)` viewed as a
Boolean: letters optionally followed by an apostrophe and more letters. -/
def isAlphaApos (l : List Char) : Bool :=
  let a := l.takeWhile isAlphaChar
  let rest := l.dropWhile isAlphaChar
  !a.isEmpty &&
    (rest.isEmpty ||
      (match rest with
       | '\'' :: b => !b.isEmpty && b.all isAlphaChar
       | _ => false))

/-- The adjective suffix test of `heuristic_pos`:
`t.endswith(("ous","ful","able","ible","al","ive","ic","y")) and len(t) > 3`. -/
def adjSuffixTest (t : List Char) : Bool :=
  (endsWithL t ['o', 'u', 's'] || endsWithL t ['f', 'u', 'l'] ||
   endsWithL t ['a', 'b', 'l', 'e'] || endsWithL t ['i', 'b', 'l', 'e'] ||
   endsWithL t ['a', 'l'] || endsWithL t ['i', 'v', 'e'] ||
   endsWithL t ['i', 'c'] || endsWithL t ['y']) && decide (t.length > 3)

/-- The source's `heuristic_pos(tok)`: the ordered rule cascade of the
heuristic POS classifier, first match wins. -/
def heuristic_pos (tok : String) : String :=
  if isSingleNonWord tok then "PUNCT"
  else if isNumLit tok.data then "NUM"
  else if COMMON_DET.contains (pyLower tok) then "DET"
  else if COMMON_ADP.contains (pyLower tok) then "ADP"
  else if COMMON_CONJ.contains (pyLower tok) then "CONJ"
  else if COMMON_PRON.contains (pyLower tok) then "PRON"
  else if endsWithL (pyLower tok).data ['l', 'y'] then "ADV"
  else if adjSuffixTest (pyLower tok).data then "ADJ"
  else if endsWithL (pyLower tok).data ['i', 'n', 'g'] || endsWithL (pyLower tok).data ['e', 'd'] then "VERB"
  else if isAlphaApos tok.data then "NOUN"
  else "OTHER"

/-! ## Segmenter and tokenizer -/

/-- Whitespace-run collapse: Python `re.sub(r"\s+", " ", text)`.  The flag
records whether the previous character was part of a whitespace run already
replaced by a single space. -/
def collapseWs : Bool → List Char → List Char
  | _, [] => []
  | prevWs, c :: rest =>
    if pyIsSpace c then
      if prevWs then collapseWs true rest else ' ' :: collapseWs true rest
    else c :: collapseWs false rest

/-- The normalisation step of `sentence_segment`:
`re.sub(r"\s+", " ", text.strip())`. -/
def normalizeWs (l : List Char) : List Char :=
  collapseWs false (stripBoth l)

/-- Test for the sentence-ending punctuation `[.!?]` of `SENT_SPLIT_RE`. -/
def isPunctEnd (c : Char) : Bool :=
  c = '.' || c = '!' || c = '?'

/-- Test for the lookahead class `[A-Z0-9"']` of `SENT_SPLIT_RE`. -/
def isClassChar (c : Char) : Bool :=
  (65 ≤ c.toNat && c.toNat ≤ 90) || isDigitChar c || c = '"' || c = '\''

/-- Test that the first character of a list is in the lookahead class. -/
def classHead : List Char → Bool
  | [] => false
  | c :: _ => isClassChar c

/-- Test that an optional preceding character satisfies the lookbehind
`(?<=[.!?])`. -/
def punctPrev : Option Char → Bool
  | none => false
  | some c => isPunctEnd c

/-- Splitting at the matches of `SENT_SPLIT_RE = (?<=[.!?])\s+(?=[A-Z0-9"'])`:
a maximal whitespace run is consumed when the character before it is sentence
punctuation and the first character after it is in the lookahead class.  `prev`
is the character before the current position, `acc` the current sentence in
reverse.  The fuel decreases by one per consumed character, so `fuel =
l.length` always suffices; the fuel-0 fallback flushes the remaining input. -/
def splitSentFuel : Nat → Option Char → List Char → List Char → List (List Char)
  | 0, _, acc, l => [acc.reverse ++ l]
  | _ + 1, _, acc, [] => [acc.reverse]
  | fuel + 1, prev, acc, c :: rest =>
    if pyIsSpace c && punctPrev prev && classHead (rest.dropWhile pyIsSpace) then
      acc.reverse :: splitSentFuel fuel (some c) [] (rest.dropWhile pyIsSpace)
    else
      splitSentFuel fuel (some c) (c :: acc) rest

/-- Sentence segmentation on character lists: normalize, then return `[]` for
the empty normalized text, else split at the regex matches. -/
def segmentL (l : List Char) : List (List Char) :=
  if (normalizeWs l).isEmpty then []
  else splitSentFuel (normalizeWs l).length none [] (normalizeWs l)

/-- The source's `sentence_segment(text)`. -/
def sentence_segment (text : String) : List String :=
  (segmentL text.data).map (fun l => (⟨l⟩ : String))

/-- One match of `TOKEN_RE = [A-Za-z]+(?:'[A-Za-z]+)?|\d+(?:\.\d+)?|[^\s]` at
the head of the input, with the remaining input; `none` when no alternative
matches there (i.e. at whitespace). -/
def matchTokenAt : List Char → Option (List Char × List Char)
  | [] => none
  | c :: rest =>
    if isAlphaChar c then
      match (c :: rest).dropWhile isAlphaChar with
      | '\'' :: d :: rest2 =>
        if isAlphaChar d then
          some ((c :: rest).takeWhile isAlphaChar ++ '\'' :: (d :: rest2).takeWhile isAlphaChar,
                (d :: rest2).dropWhile isAlphaChar)
        else some ((c :: rest).takeWhile isAlphaChar, (c :: rest).dropWhile isAlphaChar)
      | _ => some ((c :: rest).takeWhile isAlphaChar, (c :: rest).dropWhile isAlphaChar)
    else if isDigitChar c then
      match (c :: rest).dropWhile isDigitChar with
      | '.' :: d :: rest2 =>
        if isDigitChar d then
          some ((c :: rest).takeWhile isDigitChar ++ '.' :: (d :: rest2).takeWhile isDigitChar,
                (d :: rest2).dropWhile isDigitChar)
        else some ((c :: rest).takeWhile isDigitChar, (c :: rest).dropWhile isDigitChar)
      | _ => some ((c :: rest).takeWhile isDigitChar, (c :: rest).dropWhile isDigitChar)
    else if pyIsSpace c then none
    else some ([c], rest)

/-- `TOKEN_RE.findall`: scan left to right, at each position emitting the match
starting there or else skipping one character.  Each step consumes at least one
character, so `fuel = l.length` suffices; fuel 0 only occurs on empty input. -/
def tokenizeFuel : Nat → List Char → List (List Char)
  | 0, _ => []
  | fuel + 1, l =>
    match l with
    | [] => []
    | c :: rest =>
      match matchTokenAt (c :: rest) with
      | none => tokenizeFuel fuel rest
      | some (tok, rest2) => tok :: tokenizeFuel fuel rest2

/-- The source's `tokenize(sentence)`. -/
def tokenize (sentence : String) : List String :=
  (tokenizeFuel sentence.data.length sentence.data).map (fun l => (⟨l⟩ : String))

/-! ## Manual-mode POS tagging (`manual_pos_tag`) -/

/-- Normalisation the source applies to a prompt response:
`input("POS> ").strip().upper()`. -/
def normalizeChoice (s : String) : String :=
  pyUpper (pyStrip s)

/-- Coercion of a prompt response as the source performs it: normalise, then
keep it if it is in `VALID_POS`, else replace it by `"OTHER"`. -/
def coerceChoice (s : String) : String :=
  if VALID_POS.contains (normalizeChoice s) then normalizeChoice s else "OTHER"

/-- The source's handling of one token inside `manual_pos_tag`'s loop.  The
prompt is modelled by the response stream `resp` and the prompt counter `p`;
the result is the emitted `(token, tag, provenance)` triple, the updated
in-memory cache, and the updated prompt counter. -/
def manualTagOne (resp : Nat → String) (tok : String) (st : List (String × String)) (p : Nat) :
    (String × String × String) × List (String × String) × Nat :=
  match dlookup st (pyLower tok) with
  | some v => ((tok, v, "manual(cache)"), st, p)
  | none =>
    if isSingleNonWord tok then
      ((tok, "PUNCT", "manual(auto-punct)"), dinsert st (pyLower tok) "PUNCT", p)
    else
      ((tok, coerceChoice (resp p), "manual"), dinsert st (pyLower tok) (coerceChoice (resp p)), p + 1)

/-- The `for tok in tokens` loop of `manual_pos_tag`. -/
def manualTagTokens (resp : Nat → String) :
    List String → List (String × String) → Nat →
    List (String × String × String) × List (String × String) × Nat
  | [], st, p => ([], st, p)
  | tok :: rest, st, p =>
    let one := manualTagOne resp tok st p
    let more := manualTagTokens resp rest one.2.1 one.2.2
    (one.1 :: more.1, more.2.1, more.2.2)

/-- Pipeline state threading the manual-mode side effects: the contents of the
cache file, the number of times the cache has been written to storage, and the
prompt counter. -/
structure PipeState where
  file : List (String × String)
  writes : Nat
  pidx : Nat
deriving DecidableEq

/-- The source's `manual_pos_tag(tokens, storage_path)`: loads the stored cache
from the file, processes all tokens, then writes the full cache back (one
write per call). -/
def manual_pos_tag (resp : Nat → String) (tokens : List String) (s : PipeState) :
    List (String × String × String) × PipeState :=
  let r := manualTagTokens resp tokens s.file s.pidx
  (r.1, ⟨r.2.1, s.writes + 1, r.2.2⟩)

/-! ## The pipeline orchestrator (`run_pipeline`) and report writer -/

/-- One output annotation row `(si, sent, tok, pos, pos_src, lemma, removed)`
of `run_pipeline` (`lem` stands for the source's `lemma` field, which is a
reserved word in Lean). -/
structure Row where
  si : Nat
  sent : String
  tok : String
  pos : String
  posSrc : String
  lem : String
  removed : Bool
deriving DecidableEq

/-- Assembly of one annotation row from a tagged token, as in the inner loop of
`run_pipeline`: `removed = is_stopword(tok) or pos == "PUNCT"`. -/
def mkRow (lemma_dict : List (String × String)) (si : Nat) (sent : String)
    (t : String × String × String) : Row :=
  ⟨si, sent, t.1, t.2.1, t.2.2, lemmatize_token t.1 lemma_dict,
    is_stopword t.1 || t.2.1 == "PUNCT"⟩

/-- The sentence loop of `run_pipeline`, with the 1-based sentence index `si`
threaded as by Python's `enumerate(…, start=1)`. -/
def runSentences (resp : Nat → String) (lemma_dict : List (String × String)) (pos_mode : String) :
    Nat → List String → PipeState → List (List Row) × PipeState
  | _, [], s => ([], s)
  | si, sent :: rest, s =>
    let tokens := tokenize sent
    let tagged :=
      if pos_mode == "manual" then manual_pos_tag resp tokens s
      else (tokens.map (fun t => (t, heuristic_pos t, "heuristic")), s)
    let rows := tagged.1.map (mkRow lemma_dict si sent)
    let more := runSentences resp lemma_dict pos_mode (si + 1) rest tagged.2
    (rows :: more.1, more.2)

/-- The source's `run_pipeline(text, lemma_dict, pos_mode, manual_store)`. -/
def run_pipeline (resp : Nat → String) (text : String) (lemma_dict : List (String × String))
    (pos_mode : String) (s : PipeState) : List (List Row) × PipeState :=
  runSentences resp lemma_dict pos_mode 1 (sentence_segment text) s

/-- One TSV data line of the report, `f"{tok}\t{pos}\t{lemma}\t{removed}"`. -/
def rowLine (r : Row) : String :=
  r.tok ++ "\t" ++ r.pos ++ "\t" ++ r.lem ++ "\t" ++ (if r.removed then "True" else "False")

/-- The source's `write_tsv(results, out_path)`: the lines written for the
whole report.  The source indexes `sent_rows[0]` for every sentence block, so
the embedding returns `none` exactly when some per-sentence row list is empty
(the situation in which the source would raise `IndexError`). -/
def write_tsv : List (List Row) → Option (List String)
  | [] => some []
  | sent_rows :: rest =>
    match sent_rows with
    | [] => none
    | r :: _ =>
      match write_tsv rest with
      | none => none
      | some more =>
        some ((("Sentence " ++ toString r.si ++ ": " ++ r.sent) ::
               "token\tpos\tlemma\tremoved" :: sent_rows.map rowLine ++ [""]) ++ more)

/-! ## External lemma dictionary loader (`load_lemma_dict`) -/

/-- Python `line.split(sep, 1)` when `sep` occurs in `line`: the part before
the first occurrence and everything after it; `none` when `sep` is absent. -/
def splitFirst (l : List Char) (sep : Char) : Option (List Char × List Char) :=
  if l.contains sep then
    some (l.takeWhile (fun x => x ≠ sep), (l.dropWhile (fun x => x ≠ sep)).tail)
  else none

/-- The body of `load_lemma_dict`'s line loop: strip the line; skip it when
blank or starting with `#`; split on the first tab, else the first space, else
skip; store both sides lowercased. -/
def processLemmaLine (d : List (String × String)) (line : String) : List (String × String) :=
  let s := pyStrip line
  if s.data.isEmpty then d
  else if s.data.head? = some '#' then d
  else
    match splitFirst s.data '\t' with
    | some (w, rest) => dinsert d (pyLower ⟨w⟩) (pyLower ⟨rest⟩)
    | none =>
      match splitFirst s.data ' ' with
      | some (w, rest) => dinsert d (pyLower ⟨w⟩) (pyLower ⟨rest⟩)
      | none => d

/-- The source's `load_lemma_dict(path)`, over the sequence of lines read from
the file. -/
def load_lemma_dict (lines : List String) : List (String × String) :=
  lines.foldl processLemmaLine []

/-! ## Claim C4: POS tags and the closed tag set -/

/-- Validity of a manual tag cache: every stored tag is in the fixed POS set. -/
def cacheValid (st : List (String × String)) : Prop :=
  ∀ kv ∈ st, kv.2 ∈ VALID_POS

/-- The claim's per-document caching relation between two annotation rows: a
later row for the same lowercased token form carries the earlier row's tag and
cache provenance. -/
def RowRel (a b : Row) : Prop :=
  pyLower a.tok = pyLower b.tok → b.pos = a.pos ∧ b.posSrc = "manual(cache)"

/-! ## Segmenter infrastructure for claims C7 and C10 -/

/-- No two adjacent whitespace characters occur in the list. -/
def noTwoWs : List Char → Bool
  | a :: b :: rest => (!(pyIsSpace a && pyIsSpace b)) && noTwoWs (b :: rest)
  | _ => true

/-- Joining sentences with the single space consumed at each boundary;
`joinSents` of a split restores the normalized text. -/
def joinSents : List (List Char) → List Char
  | [] => []
  | [s] => s
  | s :: rest => s ++ ' ' :: joinSents rest

/-- Scan of a reversed character list for a boundary triple: some punctuation
mark immediately followed by whitespace immediately followed by a lookahead
class character (read in original order). -/
def hasTripleRev : List Char → Bool
  | c :: w :: p :: rest => (isPunctEnd p && pyIsSpace w && isClassChar c) || hasTripleRev (w :: p :: rest)
  | _ => false

/-- Invariant of the split scan: `prev` is the most recently consumed
character (the head of the reversed current-sentence accumulator), and before
any character of the current sentence is consumed it is nothing or the
whitespace consumed at the previous boundary. -/
def prevOk (prev : Option Char) (acc : List Char) : Prop :=
  match acc with
  | [] => prev = none ∨ ∃ w, prev = some w ∧ pyIsSpace w = true
  | a :: _ => prev = some a

/-- Invariant of the split scan: the two most recently consumed characters and
the next character to consume do not form a boundary triple. -/
def straddleOk (acc l : List Char) : Prop :=
  match acc, l with
  | w :: p :: _, c :: _ => ¬(isPunctEnd p = true ∧ pyIsSpace w = true ∧ isClassChar c = true)
  | _, _ => True

/-- Relation between consecutive sentences of a split: the earlier one ends
with sentence punctuation and the later one starts with a lookahead class
character. -/
def sentRel (a b : List Char) : Prop :=
  (∃ p, a.getLast? = some p ∧ isPunctEnd p = true) ∧
  (∃ c, b.head? = some c ∧ isClassChar c = true)

example : lemmatize_token "running" [] = "run" := by decide

example : lemmatize_token "meanings" [] = "meaning" := by decide

example : lemmatize_token "meaning" [] = "mean" := by decide

example : lemmatize_token "computer" [] = "computer" := by decide

example : heuristic_pos "widely" = "ADV" := by decide

example : heuristic_pos "." = "PUNCT" := by decide

example : heuristic_pos "text" = "NOUN" := by decide

example : heuristic_pos "the" = "DET" := by decide

example : is_stopword "THE" = true := by decide

example : heuristic_pos "3.14" = "NUM" := by decide

example : sentence_segment "" = [] := by decide

example : sentence_segment "   " = [] := by decide

example : sentence_segment "A. B c" = ["A.", "B c"] := by decide

example : sentence_segment "NLP helps. It is used." = ["NLP helps.", "It is used."] := by decide

example : sentence_segment "Hi there" = ["Hi there"] := by decide

example : tokenize "don't stop 3.14!" = ["don't", "stop", "3.14", "!"] := by decide

example : tokenize "A." = ["A", "."] := by decide

example : sentence_segment "He said... '42 times' ok? Yes!" =
    ["He said...", "'42 times' ok?", "Yes!"] := by decide

example : sentence_segment "a.b. C,d!  2x? \"q\"" = ["a.b.", "C,d!", "2x?", "\"q\""] := by decide

example : tokenize "e.g. 3. x'' a'b'c __ 1.2.3" =
    ["e", ".", "g", ".", "3", ".", "x", "'", "'", "a'b", "'", "c", "_", "_", "1.2", ".", "3"] := by decide

example : dlookup (load_lemma_dict ["# c", "", "ran run", "went\tgo went", "bad"]) "ran" = some "run" := by decide

example : dlookup (load_lemma_dict ["went\tgo went"]) "went" = some "go went" := by decide

example : dlookup (load_lemma_dict ["ran run", "ran go"]) "ran" = some "go" := by decide

/-! ## Basic character and dictionary lemmas -/

lemma toNat_char_ofNat (n : Nat) (h : n.isValidChar) : (Char.ofNat n).toNat = n := by
  simp [Char.ofNat, h, Char.ofNatAux, Char.toNat, UInt32.toNat, BitVec.toNat_ofNatLt]

lemma toNat_lowerChar_of_upper (c : Char) (h1 : 65 ≤ c.toNat) (h2 : c.toNat ≤ 90) :
    (lowerChar c).toNat = c.toNat + 32 := by
  have hv : (c.toNat + 32).isValidChar := by unfold Nat.isValidChar; omega
  simp [lowerChar, h1, h2, toNat_char_ofNat _ hv]

lemma lowerChar_eq_self (c : Char) (h : ¬(65 ≤ c.toNat ∧ c.toNat ≤ 90)) : lowerChar c = c := by
  unfold lowerChar
  split
  · next hcond =>
    simp only [Bool.and_eq_true, decide_eq_true_eq] at hcond
    exact absurd hcond h
  · rfl

lemma lowerChar_idem (c : Char) : lowerChar (lowerChar c) = lowerChar c := by
  by_cases h : 65 ≤ c.toNat ∧ c.toNat ≤ 90
  · have ht := toNat_lowerChar_of_upper c h.1 h.2
    exact lowerChar_eq_self _ (by omega)
  · rw [lowerChar_eq_self c h]
    exact lowerChar_eq_self c h

lemma isAlphaChar_lowerChar (c : Char) : isAlphaChar (lowerChar c) = isAlphaChar c := by
  by_cases h : 65 ≤ c.toNat ∧ c.toNat ≤ 90
  · have ht := toNat_lowerChar_of_upper c h.1 h.2
    have l1 : isAlphaChar (lowerChar c) = true := by
      simp [isAlphaChar, ht]
      omega
    have l2 : isAlphaChar c = true := by
      simp [isAlphaChar]
      omega
    rw [l1, l2]
  · rw [lowerChar_eq_self c h]

lemma comp_lowerChar_lowerChar : lowerChar ∘ lowerChar = lowerChar :=
  funext fun c => by simp [Function.comp, lowerChar_idem]

lemma comp_isAlphaChar_lowerChar : isAlphaChar ∘ lowerChar = isAlphaChar :=
  funext fun c => by simp [Function.comp, isAlphaChar_lowerChar]

lemma pyLower_idem (s : String) : pyLower (pyLower s) = pyLower s := by
  unfold pyLower
  congr 1
  rw [List.map_map, comp_lowerChar_lowerChar]

lemma pyLower_data (s : String) : (pyLower s).data = s.data.map lowerChar := rfl

lemma isPureAlpha_lower (s : String) : isPureAlpha (pyLower s).data = isPureAlpha s.data := by
  simp only [isPureAlpha, pyLower, List.all_map, comp_isAlphaChar_lowerChar]
  have h1 : (s.data.map lowerChar).isEmpty = s.data.isEmpty := by
    cases s.data <;> simp
  rw [h1]

lemma dlookup_dinsert (d : List (String × String)) (k v : String) :
    dlookup (dinsert d k v) k = some v := by
  simp [dinsert, dlookup]

lemma dlookup_dinsert_ne (d : List (String × String)) (k v k' : String) (h : k ≠ k') :
    dlookup (dinsert d k v) k' = dlookup d k' := by
  simp [dinsert, dlookup, h]

lemma dlookup_mem (d : List (String × String)) (k v : String) (h : dlookup d k = some v) :
    (k, v) ∈ d := by
  induction d with
  | nil => simp [dlookup] at h
  | cons p rest ih =>
    obtain ⟨a, b⟩ := p
    by_cases hk : a = k
    · subst hk
      simp [dlookup] at h
      subst h
      exact List.mem_cons_self _ _
    · rw [dlookup, if_neg hk] at h
      exact List.mem_cons_of_mem _ (ih h)

/-! ## Claim C3: idempotence of lemmatization -/

/-- Claim C3 counterexample: lemmatization is not idempotent for every token.
With no external dictionary, `lemmatize_token "meanings" = "meaning"` (via the
fallback dictionary), but lemmatizing the result again gives `"mean"` (via the
"ing" suffix rule), which differs from the single application. -/
theorem c3_counterexample :
    lemmatize_token "meanings" [] = "meaning" ∧
    lemmatize_token (lemmatize_token "meanings" []) [] = "mean" ∧
    ("mean" : String) ≠ "meaning" :=
  ⟨by decide, by decide, by decide⟩

/-- Claim C3 (amended): lemmatization is idempotent on every token whose
single application already returns the lowercased token unchanged (the
identity-lemma case, e.g. "computer" → "computer"); it is not idempotent for
arbitrary tokens. -/
theorem c3_idempotent_on_identity_lemmas :
    (∀ (tok : String) (d : List (String × String)), lemmatize_token tok d = pyLower tok →
      lemmatize_token (lemmatize_token tok d) d = lemmatize_token tok d) ∧
    lemmatize_token "computer" [] = "computer" ∧
    lemmatize_token (lemmatize_token "computer" []) [] = lemmatize_token "computer" [] := by
  refine ⟨fun tok d h => ?_, by decide, by decide⟩
  rw [h]
  unfold lemmatize_token at h ⊢
  rw [pyLower_idem, isPureAlpha_lower]
  exact h

/-- Witness for C3's amended theorem at a concrete identity-lemma token. -/
theorem c3_idempotent_on_identity_lemmas_witness :
    lemmatize_token (lemmatize_token "blue" []) [] = lemmatize_token "blue" [] :=
  c3_idempotent_on_identity_lemmas.1 "blue" [] (by decide)

/-! ## Claim C5: lemmatizer resolution order -/

/-- Claim C5: `lemmatize_token` resolves in this exact order with first match
winning: (1) external dictionary lookup of the lowercased token; (2) fallback
dictionary lookup; (3) for purely alphabetic tokens, the ordered suffix rules
embodied by `suffixLemma`; (4) otherwise the lowercased token unchanged.  With
no external dataset, "running" resolves via the fallback dictionary to "run",
while the suffix rules alone would have produced "runn". -/
theorem c5_resolution_order :
    (∀ (tok : String) (d : List (String × String)) (v : String),
      dlookup d (pyLower tok) = some v → lemmatize_token tok d = v) ∧
    (∀ (tok : String) (d : List (String × String)) (v : String),
      dlookup d (pyLower tok) = none → dlookup FALLBACK_LEMMA_DICT (pyLower tok) = some v →
      lemmatize_token tok d = v) ∧
    (∀ (tok : String) (d : List (String × String)),
      dlookup d (pyLower tok) = none → dlookup FALLBACK_LEMMA_DICT (pyLower tok) = none →
      isPureAlpha tok.data = true → lemmatize_token tok d = ⟨suffixLemma (pyLower tok).data⟩) ∧
    (∀ (tok : String) (d : List (String × String)),
      dlookup d (pyLower tok) = none → dlookup FALLBACK_LEMMA_DICT (pyLower tok) = none →
      isPureAlpha tok.data = false → lemmatize_token tok d = pyLower tok) ∧
    lemmatize_token "running" [] = "run" ∧
    dlookup ([] : List (String × String)) (pyLower "running") = none ∧
    dlookup FALLBACK_LEMMA_DICT (pyLower "running") = some "run" ∧
    suffixLemma (pyLower "running").data = "runn".data ∧
    ("runn" : String) ≠ "run" := by
  refine ⟨?_, ?_, ?_, ?_, by decide, by decide, by decide, by decide, by decide⟩
  · intro tok d v h
    unfold lemmatize_token
    rw [h]
  · intro tok d v h1 h2
    unfold lemmatize_token
    rw [h1, h2]
  · intro tok d h1 h2 h3
    unfold lemmatize_token
    rw [h1, h2, h3]
    simp
  · intro tok d h1 h2 h3
    unfold lemmatize_token
    rw [h1, h2, h3]
    simp

/-- Witness for C5 at the "running" scenario, discharging the hypotheses of
its second resolution stage concretely. -/
theorem c5_resolution_order_witness : lemmatize_token "running" [] = "run" :=
  c5_resolution_order.2.1 "running" [] "run" (by decide) (by decide)

/-! ## Claim C6: the removed flag -/

lemma runSentences_removed (resp : Nat → String) (d : List (String × String)) (mode : String) :
    ∀ (si : Nat) (sents : List String) (s : PipeState),
      ∀ rows ∈ (runSentences resp d mode si sents s).1, ∀ r ∈ rows,
        r.removed = (is_stopword r.tok || r.pos == "PUNCT") := by
  intro si sents
  induction sents generalizing si with
  | nil =>
    intro s rows h
    simp [runSentences] at h
  | cons sent rest ih =>
    intro s rows hrows r hr
    simp only [runSentences] at hrows
    rcases List.mem_cons.mp hrows with heq | hmem
    · subst heq
      obtain ⟨t, _, rfl⟩ := List.mem_map.mp hr
      rfl
    · exact ih _ _ _ hmem r hr

/-- Claim C6: in every annotation row produced by the pipeline (either mode),
the removed flag equals "the token is a stop word (case-insensitively) or its
POS tag is PUNCT"; and stop-word classification is case-insensitive, removing
"The", "THE" and "the" alike. -/
theorem c6_removed_iff :
    (∀ (resp : Nat → String) (text : String) (d : List (String × String))
        (mode : String) (s : PipeState),
      ∀ rows ∈ (run_pipeline resp text d mode s).1, ∀ r ∈ rows,
        r.removed = (is_stopword r.tok || r.pos == "PUNCT")) ∧
    is_stopword "The" = true ∧ is_stopword "THE" = true ∧ is_stopword "the" = true ∧
    (∀ r ∈ (run_pipeline (fun _ => "") "The THE the" [] "heuristic" ⟨[], 0, 0⟩).1.flatten,
      r.removed = true) := by
  refine ⟨?_, by decide, by decide, by decide, by decide⟩
  intro resp text d mode s
  exact runSentences_removed resp d mode 1 (sentence_segment text) s

/-- Witness for C6 at a concrete heuristic run. -/
theorem c6_removed_iff_witness :
    (⟨1, "Hi.", ".", "PUNCT", "heuristic", ".", true⟩ : Row).removed =
      (is_stopword "." || "PUNCT" == "PUNCT") := by
  have h := c6_removed_iff.1 (fun _ => "") "Hi." [] "heuristic" ⟨[], 0, 0⟩
  exact h [⟨1, "Hi.", "Hi", "NOUN", "heuristic", "hi", false⟩,
           ⟨1, "Hi.", ".", "PUNCT", "heuristic", ".", true⟩] (by decide)
          ⟨1, "Hi.", ".", "PUNCT", "heuristic", ".", true⟩ (by decide)

/-! ## Claim C9: invalid manual response coerced to OTHER -/

/-- Claim C9: in manual mode, when the token is not cached and is not
single-character punctuation, a prompt whose (stripped, uppercased) response is
outside the fixed POS set is coerced to OTHER without re-prompting — exactly
one response is consumed — and the coerced result is cached and emitted with
provenance "manual". -/
theorem c9_invalid_response_coerced :
    ∀ (resp : Nat → String) (tok : String) (st : List (String × String)) (p : Nat),
      dlookup st (pyLower tok) = none →
      isSingleNonWord tok = false →
      VALID_POS.contains (normalizeChoice (resp p)) = false →
      manualTagOne resp tok st p =
        ((tok, "OTHER", "manual"), dinsert st (pyLower tok) "OTHER", p + 1) := by
  intro resp tok st p h1 h2 h3
  unfold manualTagOne coerceChoice
  rw [h1, h2, h3]
  simp

/-- Witness for C9 at a concrete invalid response. -/
theorem c9_invalid_response_coerced_witness :
    manualTagOne (fun _ => "banana") "dog" [] 0 =
      (("dog", "OTHER", "manual"), dinsert [] (pyLower "dog") "OTHER", 1) :=
  c9_invalid_response_coerced (fun _ => "banana") "dog" [] 0 (by decide) (by decide) (by decide)

set_option maxHeartbeats 2000000 in
lemma heuristic_pos_mem (tok : String) : heuristic_pos tok ∈ VALID_POS := by
  unfold heuristic_pos
  split_ifs <;> decide

lemma coerceChoice_mem (s : String) : coerceChoice s ∈ VALID_POS := by
  unfold coerceChoice
  split_ifs with h
  · simpa using h
  · decide

lemma manualTagOne_valid (resp : Nat → String) (tok : String) (st : List (String × String))
    (p : Nat) (h : cacheValid st) :
    cacheValid (manualTagOne resp tok st p).2.1 ∧ (manualTagOne resp tok st p).1.2.1 ∈ VALID_POS := by
  unfold manualTagOne
  cases hl : dlookup st (pyLower tok) with
  | some v => exact ⟨h, h _ (dlookup_mem _ _ _ hl)⟩
  | none =>
    split_ifs with hs
    · refine ⟨?_, (by decide : ("PUNCT" : String) ∈ VALID_POS)⟩
      intro kv hkv
      rcases List.mem_cons.mp hkv with rfl | hm
      · exact (by decide : ("PUNCT" : String) ∈ VALID_POS)
      · exact h _ hm
    · refine ⟨?_, coerceChoice_mem _⟩
      intro kv hkv
      rcases List.mem_cons.mp hkv with rfl | hm
      · exact coerceChoice_mem _
      · exact h _ hm

lemma manualTagTokens_valid (resp : Nat → String) (toks : List String) :
    ∀ (st : List (String × String)) (p : Nat), cacheValid st →
      cacheValid (manualTagTokens resp toks st p).2.1 ∧
      ∀ t ∈ (manualTagTokens resp toks st p).1, t.2.1 ∈ VALID_POS := by
  induction toks with
  | nil =>
    intro st p h
    exact ⟨h, by simp [manualTagTokens]⟩
  | cons tok rest ih =>
    intro st p h
    have h1 := manualTagOne_valid resp tok st p h
    have h2 := ih (manualTagOne resp tok st p).2.1 (manualTagOne resp tok st p).2.2 h1.1
    simp only [manualTagTokens]
    refine ⟨h2.1, ?_⟩
    intro t ht
    rcases List.mem_cons.mp ht with rfl | hm
    · exact h1.2
    · exact h2.2 t hm

lemma runSentences_pos_valid (resp : Nat → String) (d : List (String × String)) (mode : String) :
    ∀ (si : Nat) (sents : List String) (s : PipeState), cacheValid s.file →
      (∀ rows ∈ (runSentences resp d mode si sents s).1, ∀ r ∈ rows, r.pos ∈ VALID_POS) ∧
      cacheValid (runSentences resp d mode si sents s).2.file := by
  intro si sents
  induction sents generalizing si with
  | nil =>
    intro s h
    exact ⟨by simp [runSentences], h⟩
  | cons sent rest ih =>
    intro s h
    by_cases hm : (mode == "manual") = true
    · have hv := manualTagTokens_valid resp (tokenize sent) s.file s.pidx h
      have hrec := ih (si + 1) ⟨(manualTagTokens resp (tokenize sent) s.file s.pidx).2.1,
        s.writes + 1, (manualTagTokens resp (tokenize sent) s.file s.pidx).2.2⟩ hv.1
      simp only [runSentences, manual_pos_tag, hm, if_true]
      refine ⟨?_, hrec.2⟩
      intro rows hrows r hr
      rcases List.mem_cons.mp hrows with rfl | hmem
      · obtain ⟨t, hmt, rfl⟩ := List.mem_map.mp hr
        exact hv.2 t hmt
      · exact hrec.1 rows hmem r hr
    · have hrec := ih (si + 1) s h
      simp only [runSentences, hm, if_false]
      refine ⟨?_, hrec.2⟩
      intro rows hrows r hr
      rcases List.mem_cons.mp hrows with rfl | hmem
      · obtain ⟨t, hmt, rfl⟩ := List.mem_map.mp hr
        obtain ⟨tk, _, rfl⟩ := List.mem_map.mp hmt
        exact heuristic_pos_mem tk
      · exact hrec.1 rows hmem r hr

/-- Claim C4 counterexample: an entry of a pre-existing manual cache file is
emitted into the annotation row as stored, without validation against the
fixed POS set.  With cache `{"foo": "XYZ"}`, the manual-mode row for token
"foo" carries tag "XYZ", which is not in the set. -/
theorem c4_counterexample :
    (run_pipeline (fun _ => "") "foo" [] "manual" ⟨[("foo", "XYZ")], 0, 0⟩).1.flatten.map Row.pos =
      ["XYZ"] ∧ ("XYZ" : String) ∉ VALID_POS :=
  ⟨by decide, by decide⟩

/-- Claim C4 (amended): every heuristic-mode tag is in the fixed closed POS
set, and in either mode every tag placed in an annotation row is in the set
provided each tag of the pre-loaded cache file is in the set; tags read from
the cache file are emitted as stored, so an invalid cached tag is not coerced
to OTHER. -/
theorem c4_pos_in_valid_set :
    (∀ tok : String, heuristic_pos tok ∈ VALID_POS) ∧
    (∀ (resp : Nat → String) (text : String) (d : List (String × String))
        (mode : String) (s : PipeState), cacheValid s.file →
      ∀ rows ∈ (run_pipeline resp text d mode s).1, ∀ r ∈ rows, r.pos ∈ VALID_POS) := by
  refine ⟨heuristic_pos_mem, ?_⟩
  intro resp text d mode s h
  exact (runSentences_pos_valid resp d mode 1 (sentence_segment text) s h).1

/-- Witness for C4's amended theorem: a valid pre-existing cache yields a row
tag inside the fixed set. -/
theorem c4_pos_in_valid_set_witness :
    (⟨1, "foo", "foo", "NOUN", "manual(cache)", "foo", false⟩ : Row).pos ∈ VALID_POS := by
  have h := c4_pos_in_valid_set.2 (fun _ => "") "foo" [] "manual" ⟨[("foo", "NOUN")], 0, 0⟩
    (by unfold cacheValid; decide)
  exact h [⟨1, "foo", "foo", "NOUN", "manual(cache)", "foo", false⟩] (by decide)
    ⟨1, "foo", "foo", "NOUN", "manual(cache)", "foo", false⟩ (by decide)

/-! ## Claim C1: cache writes per document -/

lemma runSentences_writes_manual (resp : Nat → String) (d : List (String × String)) :
    ∀ (si : Nat) (sents : List String) (s : PipeState),
      (runSentences resp d "manual" si sents s).2.writes = s.writes + sents.length := by
  intro si sents
  induction sents generalizing si with
  | nil =>
    intro s
    simp [runSentences]
  | cons sent rest ih =>
    intro s
    simp only [runSentences, manual_pos_tag]
    rw [if_pos (by decide : (("manual" : String) == "manual") = true)]
    have := ih (si + 1) ⟨(manualTagTokens resp (tokenize sent) s.file s.pidx).2.1,
      s.writes + 1, (manualTagTokens resp (tokenize sent) s.file s.pidx).2.2⟩
    simp only at this ⊢
    rw [this]
    simp [List.length_cons]
    omega

/-- Claim C1 counterexample: in manual mode, processing the two-sentence
document "A. B c" writes the manual tag cache twice (once after each
sentence), not exactly once for the whole document. -/
theorem c1_counterexample :
    (run_pipeline (fun _ => "NOUN") "A. B c" [] "manual" ⟨[], 0, 0⟩).2.writes = 2 ∧
    (2 : Nat) ≠ 1 :=
  ⟨by decide, by decide⟩

/-- Claim C1 (amended): in manual mode the cache is loaded at the start and
written back in full once per sentence — `manual_pos_tag` runs once for each
sentence — so a run over a document adds exactly one cache write per sentence
of the document, rather than a single write after all sentences. -/
theorem c1_one_write_per_sentence :
    ∀ (resp : Nat → String) (text : String) (d : List (String × String)) (s : PipeState),
      (run_pipeline resp text d "manual" s).2.writes = s.writes + (sentence_segment text).length := by
  intro resp text d s
  exact runSentences_writes_manual resp d 1 (sentence_segment text) s

/-! ## Claim C2: manual-mode caching -/

lemma manualTagOne_tok (resp : Nat → String) (tok : String) (st : List (String × String))
    (p : Nat) : (manualTagOne resp tok st p).1.1 = tok := by
  unfold manualTagOne
  cases dlookup st (pyLower tok) with
  | some v => rfl
  | none => split_ifs <;> rfl

lemma manualTagOne_mono (resp : Nat → String) (tok : String) (st : List (String × String))
    (p : Nat) (k v : String) (h : dlookup st k = some v) :
    dlookup (manualTagOne resp tok st p).2.1 k = some v := by
  unfold manualTagOne
  cases hl : dlookup st (pyLower tok) with
  | some w => exact h
  | none =>
    have hne : pyLower tok ≠ k := by
      intro he
      rw [he, h] at hl
      cases hl
    split_ifs <;> rw [dlookup_dinsert_ne _ _ _ _ hne] <;> exact h

lemma manualTagOne_emits (resp : Nat → String) (tok : String) (st : List (String × String))
    (p : Nat) :
    dlookup (manualTagOne resp tok st p).2.1 (pyLower tok) =
      some (manualTagOne resp tok st p).1.2.1 := by
  unfold manualTagOne
  cases hl : dlookup st (pyLower tok) with
  | some v => exact hl
  | none => split_ifs <;> exact dlookup_dinsert _ _ _

lemma manualTagTokens_mono (resp : Nat → String) (toks : List String) :
    ∀ (st : List (String × String)) (p : Nat) (k v : String), dlookup st k = some v →
      dlookup (manualTagTokens resp toks st p).2.1 k = some v := by
  induction toks with
  | nil =>
    intro st p k v h
    exact h
  | cons tok rest ih =>
    intro st p k v h
    simp only [manualTagTokens]
    exact ih _ _ _ _ (manualTagOne_mono resp tok st p k v h)

lemma manualTagTokens_row_cached (resp : Nat → String) (toks : List String) :
    ∀ (st : List (String × String)) (p : Nat) (k v : String), dlookup st k = some v →
      ∀ t ∈ (manualTagTokens resp toks st p).1, pyLower t.1 = k →
        t.2.1 = v ∧ t.2.2 = "manual(cache)" := by
  induction toks with
  | nil =>
    intro st p k v _ t ht
    simp [manualTagTokens] at ht
  | cons tok rest ih =>
    intro st p k v h t ht hk
    simp only [manualTagTokens, List.mem_cons] at ht
    rcases ht with rfl | ht
    · rw [manualTagOne_tok] at hk
      subst hk
      unfold manualTagOne
      rw [h]
      exact ⟨rfl, rfl⟩
    · exact ih _ _ _ _ (manualTagOne_mono resp tok st p k v h) t ht hk

lemma manualTagTokens_all_emitted (resp : Nat → String) (toks : List String) :
    ∀ (st : List (String × String)) (p : Nat), ∀ t ∈ (manualTagTokens resp toks st p).1,
      dlookup (manualTagTokens resp toks st p).2.1 (pyLower t.1) = some t.2.1 := by
  induction toks with
  | nil =>
    intro st p t ht
    simp [manualTagTokens] at ht
  | cons tok rest ih =>
    intro st p t ht
    simp only [manualTagTokens, List.mem_cons] at ht ⊢
    rcases ht with rfl | ht
    · rw [manualTagOne_tok]
      exact manualTagTokens_mono resp rest _ _ _ _ (manualTagOne_emits resp tok st p)
    · exact ih _ _ t ht

lemma manualTagTokens_pairwise (resp : Nat → String) (toks : List String) :
    ∀ (st : List (String × String)) (p : Nat),
      ((manualTagTokens resp toks st p).1).Pairwise
        (fun a b => pyLower a.1 = pyLower b.1 → b.2.1 = a.2.1 ∧ b.2.2 = "manual(cache)") := by
  induction toks with
  | nil =>
    intro st p
    simp [manualTagTokens]
  | cons tok rest ih =>
    intro st p
    simp only [manualTagTokens]
    refine List.Pairwise.cons ?_ (ih _ _)
    intro b hb hkey
    rw [manualTagOne_tok] at hkey
    exact manualTagTokens_row_cached resp rest _ _ _ _
      (manualTagOne_emits resp tok st p) b hb hkey.symm

lemma manualTagOne_eq_cache (resp : Nat → String) (tok : String) (st : List (String × String))
    (p : Nat) (v : String) (h : dlookup st (pyLower tok) = some v) :
    manualTagOne resp tok st p = ((tok, v, "manual(cache)"), st, p) := by
  unfold manualTagOne
  rw [h]

lemma manualTagOne_eq_punct (resp : Nat → String) (tok : String) (st : List (String × String))
    (p : Nat) (h : dlookup st (pyLower tok) = none) (hs : isSingleNonWord tok = true) :
    manualTagOne resp tok st p =
      ((tok, "PUNCT", "manual(auto-punct)"), dinsert st (pyLower tok) "PUNCT", p) := by
  unfold manualTagOne
  rw [h, hs]
  simp

lemma manualTagOne_eq_prompt (resp : Nat → String) (tok : String) (st : List (String × String))
    (p : Nat) (h : dlookup st (pyLower tok) = none) (hs : isSingleNonWord tok = false) :
    manualTagOne resp tok st p =
      ((tok, coerceChoice (resp p), "manual"),
        dinsert st (pyLower tok) (coerceChoice (resp p)), p + 1) := by
  unfold manualTagOne
  rw [h, hs]
  simp

lemma manualTagTokens_pidx (resp : Nat → String) (toks : List String) :
    ∀ (st : List (String × String)) (p : Nat),
      (manualTagTokens resp toks st p).2.2 =
        p + ((manualTagTokens resp toks st p).1.filter (fun t => t.2.2 == "manual")).length := by
  induction toks with
  | nil =>
    intro st p
    simp [manualTagTokens]
  | cons tok rest ih =>
    intro st p
    simp only [manualTagTokens]
    cases hl : dlookup st (pyLower tok) with
    | some v =>
      rw [manualTagOne_eq_cache resp tok st p v hl]
      simp only [List.filter_cons]
      rw [ih st p]
      simp
    | none =>
      cases hs : isSingleNonWord tok with
      | true =>
        rw [manualTagOne_eq_punct resp tok st p hl hs]
        simp only [List.filter_cons]
        rw [ih _ p]
        simp
      | false =>
        rw [manualTagOne_eq_prompt resp tok st p hl hs]
        simp only [List.filter_cons]
        rw [ih _ (p + 1)]
        simp
        omega

lemma mkRow_tok (d : List (String × String)) (si : Nat) (sent : String)
    (t : String × String × String) : (mkRow d si sent t).tok = t.1 := rfl

lemma mkRow_pos (d : List (String × String)) (si : Nat) (sent : String)
    (t : String × String × String) : (mkRow d si sent t).pos = t.2.1 := rfl

lemma mkRow_posSrc (d : List (String × String)) (si : Nat) (sent : String)
    (t : String × String × String) : (mkRow d si sent t).posSrc = t.2.2 := rfl

lemma runSentences_manual_cons (resp : Nat → String) (d : List (String × String)) (si : Nat)
    (sent : String) (rest : List String) (s : PipeState) :
    runSentences resp d "manual" si (sent :: rest) s =
      ((manualTagTokens resp (tokenize sent) s.file s.pidx).1.map (mkRow d si sent) ::
        (runSentences resp d "manual" (si + 1) rest
          ⟨(manualTagTokens resp (tokenize sent) s.file s.pidx).2.1, s.writes + 1,
           (manualTagTokens resp (tokenize sent) s.file s.pidx).2.2⟩).1,
       (runSentences resp d "manual" (si + 1) rest
          ⟨(manualTagTokens resp (tokenize sent) s.file s.pidx).2.1, s.writes + 1,
           (manualTagTokens resp (tokenize sent) s.file s.pidx).2.2⟩).2) := rfl

lemma runSentences_manual_cache (resp : Nat → String) (d : List (String × String)) :
    ∀ (si : Nat) (sents : List String) (s : PipeState),
      (∀ k v, dlookup s.file k = some v →
        dlookup (runSentences resp d "manual" si sents s).2.file k = some v) ∧
      (∀ r ∈ (runSentences resp d "manual" si sents s).1.flatten,
        dlookup (runSentences resp d "manual" si sents s).2.file (pyLower r.tok) = some r.pos) ∧
      (∀ k v, dlookup s.file k = some v →
        ∀ r ∈ (runSentences resp d "manual" si sents s).1.flatten,
          pyLower r.tok = k → r.pos = v ∧ r.posSrc = "manual(cache)") ∧
      ((runSentences resp d "manual" si sents s).1.flatten).Pairwise RowRel := by
  intro si sents
  induction sents generalizing si with
  | nil =>
    intro s
    refine ⟨fun k v h => h, ?_, ?_, ?_⟩ <;> simp [runSentences]
  | cons sent rest ih =>
    intro s
    rw [runSentences_manual_cons]
    have ihS := ih (si + 1) ⟨(manualTagTokens resp (tokenize sent) s.file s.pidx).2.1,
      s.writes + 1, (manualTagTokens resp (tokenize sent) s.file s.pidx).2.2⟩
    simp only [List.flatten_cons]
    refine ⟨?_, ?_, ?_, ?_⟩
    · intro k v h
      exact ihS.1 k v (manualTagTokens_mono resp (tokenize sent) s.file s.pidx k v h)
    · intro r hr
      rcases List.mem_append.mp hr with hr1 | hr2
      · obtain ⟨t, hmt, rfl⟩ := List.mem_map.mp hr1
        rw [mkRow_tok, mkRow_pos]
        exact ihS.1 _ _ (manualTagTokens_all_emitted resp (tokenize sent) s.file s.pidx t hmt)
      · exact ihS.2.1 r hr2
    · intro k v h r hr hk
      rcases List.mem_append.mp hr with hr1 | hr2
      · obtain ⟨t, hmt, rfl⟩ := List.mem_map.mp hr1
        rw [mkRow_tok] at hk
        have := manualTagTokens_row_cached resp (tokenize sent) s.file s.pidx k v h t hmt hk
        exact ⟨this.1, this.2⟩
      · exact ihS.2.2.1 k v (manualTagTokens_mono resp (tokenize sent) s.file s.pidx k v h) r hr2 hk
    · rw [List.pairwise_append]
      refine ⟨?_, ihS.2.2.2, ?_⟩
      · rw [List.pairwise_map]
        apply List.Pairwise.imp ?_ (manualTagTokens_pairwise resp (tokenize sent) s.file s.pidx)
        intro a b hab
        intro hk
        rw [mkRow_tok, mkRow_tok] at hk
        have := hab hk
        exact ⟨by rw [mkRow_pos, mkRow_pos, this.1], by rw [mkRow_posSrc, this.2]⟩
      · intro a ha b hb
        obtain ⟨t, hmt, rfl⟩ := List.mem_map.mp ha
        intro hk
        rw [mkRow_tok] at hk
        have hemit := manualTagTokens_all_emitted resp (tokenize sent) s.file s.pidx t hmt
        have := ihS.2.2.1 (pyLower t.1) t.2.1 hemit b hb hk.symm
        exact ⟨by rw [mkRow_pos]; exact this.1, this.2⟩

lemma runSentences_manual_pidx (resp : Nat → String) (d : List (String × String)) :
    ∀ (si : Nat) (sents : List String) (s : PipeState),
      (runSentences resp d "manual" si sents s).2.pidx =
        s.pidx + (((runSentences resp d "manual" si sents s).1.flatten).filter
          (fun r => r.posSrc == "manual")).length := by
  intro si sents
  induction sents generalizing si with
  | nil =>
    intro s
    simp [runSentences]
  | cons sent rest ih =>
    intro s
    rw [runSentences_manual_cons]
    have ihS := ih (si + 1) ⟨(manualTagTokens resp (tokenize sent) s.file s.pidx).2.1,
      s.writes + 1, (manualTagTokens resp (tokenize sent) s.file s.pidx).2.2⟩
    simp only [List.flatten_cons, List.filter_append, List.length_append] at ihS ⊢
    rw [ihS]
    have hLen : ((((manualTagTokens resp (tokenize sent) s.file s.pidx).1.map
        (mkRow d si sent)).filter (fun r => r.posSrc == "manual")).length) =
        (((manualTagTokens resp (tokenize sent) s.file s.pidx).1.filter
          (fun t => t.2.2 == "manual")).length) := by
      rw [List.filter_map]
      rw [List.length_map]
      rfl
    rw [hLen]
    have hP := manualTagTokens_pidx resp (tokenize sent) s.file s.pidx
    omega

/-- Claim C2 counterexample: the provenance string the source emits for a
cache hit is "manual(cache)", not "manual-cached" as the claim states.  In a
manual run over "Dog dog", the second occurrence of the form "dog" is emitted
with the cached tag and provenance "manual(cache)". -/
theorem c2_counterexample :
    (run_pipeline (fun _ => "NOUN") "Dog dog" [] "manual" ⟨[], 0, 0⟩).1.flatten.map
        (fun r => (r.tok, r.pos, r.posSrc)) =
      [("Dog", "NOUN", "manual"), ("dog", "NOUN", "manual(cache)")] ∧
    ("manual(cache)" : String) ≠ "manual-cached" :=
  ⟨by decide, by decide⟩

/-- Claim C2 (amended): in manual mode, each lowercased token form is prompted
for at most once per run and at most once across runs sharing the cache file:
within one document run, any later occurrence of a form carries the tag of its
first occurrence with provenance "manual(cache)" (the `Pairwise` part); any
form already present in the loaded cache file is never prompted and is always
emitted with the stored tag and provenance "manual(cache)"; and the number of
responses consumed equals the number of rows with provenance "manual", of
which there is at most one per form. -/
theorem c2_prompt_at_most_once :
    ∀ (resp : Nat → String) (text : String) (d : List (String × String)) (s : PipeState),
      ((run_pipeline resp text d "manual" s).1.flatten).Pairwise RowRel ∧
      (∀ k v, dlookup s.file k = some v →
        ∀ r ∈ (run_pipeline resp text d "manual" s).1.flatten,
          pyLower r.tok = k → r.pos = v ∧ r.posSrc = "manual(cache)") ∧
      (run_pipeline resp text d "manual" s).2.pidx =
        s.pidx + (((run_pipeline resp text d "manual" s).1.flatten).filter
          (fun r => r.posSrc == "manual")).length := by
  intro resp text d s
  have h := runSentences_manual_cache resp d 1 (sentence_segment text) s
  exact ⟨h.2.2.2, h.2.2.1, runSentences_manual_pidx resp d 1 (sentence_segment text) s⟩

/-- Witness for C2's amended theorem: with the form "dog" already in the cache
file mapped to VERB, both occurrences in "Dog dog" come back cached. -/
theorem c2_prompt_at_most_once_witness :
    (⟨1, "Dog dog", "dog", "VERB", "manual(cache)", "dog", false⟩ : Row).pos = "VERB" ∧
    (⟨1, "Dog dog", "dog", "VERB", "manual(cache)", "dog", false⟩ : Row).posSrc =
      "manual(cache)" := by
  have h := (c2_prompt_at_most_once (fun _ => "NOUN") "Dog dog" [] ⟨[("dog", "VERB")], 0, 0⟩).2.1
    "dog" "VERB" (by decide)
  exact h ⟨1, "Dog dog", "dog", "VERB", "manual(cache)", "dog", false⟩ (by decide) (by decide)

/-! ## Claim C8: the external lemma dictionary loader -/

/-- Claim C8: per line (after Python's per-line strip), the loader leaves the
dictionary unchanged on blank lines and lines starting with '#'; splits on the
first tab when a tab is present, else on the first space when a space is
present, storing both sides lowercased; skips lines with neither separator;
and processes lines in order with later lines shadowing earlier ones for the
same lowercased word. -/
theorem c8_loader_per_line :
    (∀ (d : List (String × String)) (line : String),
      (pyStrip line).data = [] → processLemmaLine d line = d) ∧
    (∀ (d : List (String × String)) (line : String),
      (pyStrip line).data.head? = some '#' → processLemmaLine d line = d) ∧
    (∀ (d : List (String × String)) (line : String),
      (pyStrip line).data ≠ [] → (pyStrip line).data.head? ≠ some '#' →
      '\t' ∈ (pyStrip line).data →
      processLemmaLine d line =
        dinsert d (pyLower ⟨(pyStrip line).data.takeWhile (fun x => x ≠ '\t')⟩)
          (pyLower ⟨((pyStrip line).data.dropWhile (fun x => x ≠ '\t')).tail⟩)) ∧
    (∀ (d : List (String × String)) (line : String),
      (pyStrip line).data ≠ [] → (pyStrip line).data.head? ≠ some '#' →
      '\t' ∉ (pyStrip line).data → ' ' ∈ (pyStrip line).data →
      processLemmaLine d line =
        dinsert d (pyLower ⟨(pyStrip line).data.takeWhile (fun x => x ≠ ' ')⟩)
          (pyLower ⟨((pyStrip line).data.dropWhile (fun x => x ≠ ' ')).tail⟩)) ∧
    (∀ (d : List (String × String)) (line : String),
      (pyStrip line).data ≠ [] → (pyStrip line).data.head? ≠ some '#' →
      '\t' ∉ (pyStrip line).data → ' ' ∉ (pyStrip line).data →
      processLemmaLine d line = d) ∧
    (∀ (lines : List String) (line : String),
      load_lemma_dict (lines ++ [line]) = processLemmaLine (load_lemma_dict lines) line) ∧
    (∀ (d : List (String × String)) (k v : String), dlookup (dinsert d k v) k = some v) ∧
    (∀ (d : List (String × String)) (k v k' : String), k ≠ k' →
      dlookup (dinsert d k v) k' = dlookup d k') := by
  refine ⟨?_, ?_, ?_, ?_, ?_, ?_, dlookup_dinsert, dlookup_dinsert_ne⟩
  · intro d line h
    unfold processLemmaLine
    rw [if_pos (by simp [h])]
  · intro d line h
    unfold processLemmaLine
    have hne : ¬(pyStrip line).data.isEmpty = true := by
      cases hd : (pyStrip line).data with
      | nil => rw [hd] at h; simp at h
      | cons a l => simp [hd]
    rw [if_neg (by simpa using hne), if_pos h]
  · intro d line hne hh ht
    unfold processLemmaLine splitFirst
    rw [if_neg (by simpa using hne), if_neg hh, if_pos (by simpa using ht)]
  · intro d line hne hh ht hsp
    unfold processLemmaLine splitFirst
    rw [if_neg (by simpa using hne), if_neg hh, if_neg (by simpa using ht),
      if_pos (by simpa using hsp)]
  · intro d line hne hh ht hsp
    unfold processLemmaLine splitFirst
    rw [if_neg (by simpa using hne), if_neg hh, if_neg (by simpa using ht),
      if_neg (by simpa using hsp)]
  · intro lines line
    simp [load_lemma_dict, List.foldl_append]

/-- Witness for C8 at a concrete tab-separated line. -/
theorem c8_loader_per_line_witness :
    processLemmaLine [] "Went\tGo now" =
      dinsert [] (pyLower ⟨(pyStrip "Went\tGo now").data.takeWhile (fun x => x ≠ '\t')⟩)
        (pyLower ⟨((pyStrip "Went\tGo now").data.dropWhile (fun x => x ≠ '\t')).tail⟩) :=
  c8_loader_per_line.2.2.1 [] "Went\tGo now" (by decide) (by decide) (by decide)

example : dlookup (load_lemma_dict ["Went\tGo now"]) "went" = some "go now" := by decide

lemma pyIsSpace_cases (c : Char) (h : pyIsSpace c = true) :
    c = ' ' ∨ c = '\t' ∨ c = '\n' ∨ c = '\r' ∨ c = '\x0b' ∨ c = '\x0c' := by
  simp [pyIsSpace] at h
  tauto

lemma isPunctEnd_not_ws (c : Char) (h : isPunctEnd c = true) : pyIsSpace c = false := by
  simp [isPunctEnd] at h
  rcases h with (rfl | rfl) | rfl <;> decide

lemma isClassChar_not_ws (c : Char) (h : isClassChar c = true) : pyIsSpace c = false := by
  cases hw : pyIsSpace c with
  | false => rfl
  | true =>
    rcases pyIsSpace_cases c hw with rfl | rfl | rfl | rfl | rfl | rfl <;> simp [isClassChar, isDigitChar] at h

lemma ws_not_alpha (c : Char) (h : pyIsSpace c = true) : isAlphaChar c = false := by
  rcases pyIsSpace_cases c h with rfl | rfl | rfl | rfl | rfl | rfl <;> decide

lemma ws_not_digit (c : Char) (h : pyIsSpace c = true) : isDigitChar c = false := by
  rcases pyIsSpace_cases c h with rfl | rfl | rfl | rfl | rfl | rfl <;> decide

lemma noTwoWs_tail (a : Char) (l : List Char) (h : noTwoWs (a :: l) = true) :
    noTwoWs l = true := by
  cases l with
  | nil => rfl
  | cons b rest => simpa [noTwoWs] using (by simpa [noTwoWs] using h : _ ∧ _).2

lemma noTwoWs_adj (a b : Char) (l : List Char) (h : noTwoWs (a :: b :: l) = true)
    (ha : pyIsSpace a = true) : pyIsSpace b = false := by
  simp [noTwoWs] at h
  rcases h.1 with h2 | h2
  · exact absurd ha (by simp [h2])
  · exact h2

lemma collapse_head_not_ws : ∀ (l : List Char) (c : Char),
    (collapseWs true l).head? = some c → pyIsSpace c = false := by
  intro l
  induction l with
  | nil => intro c h; simp [collapseWs] at h
  | cons a rest ih =>
    intro c h
    by_cases ha : pyIsSpace a = true
    · rw [collapseWs, if_pos ha, if_pos rfl] at h
      exact ih c h
    · rw [collapseWs, if_neg ha] at h
      simp at h
      rw [← h]
      simpa using ha

lemma noTwoWs_collapse : ∀ (l : List Char) (b : Bool), noTwoWs (collapseWs b l) = true := by
  intro l
  induction l with
  | nil => intro b; cases b <;> rfl
  | cons a rest ih =>
    intro b
    by_cases ha : pyIsSpace a = true
    · cases b with
      | true =>
        rw [collapseWs, if_pos ha, if_pos rfl]
        exact ih true
      | false =>
        rw [collapseWs, if_pos ha]
        simp only [Bool.false_eq_true, if_false]
        cases hX : collapseWs true rest with
        | nil => rfl
        | cons x xs =>
          have hx : pyIsSpace x = false := collapse_head_not_ws rest x (by rw [hX]; rfl)
          have hT : noTwoWs (x :: xs) = true := by rw [← hX]; exact ih true
          simp [noTwoWs, hx, hT]
    · rw [collapseWs, if_neg ha]
      cases hX : collapseWs false rest with
      | nil => rfl
      | cons x xs =>
        have hT : noTwoWs (x :: xs) = true := by rw [← hX]; exact ih false
        simp [noTwoWs, hT]
        exact Or.inl (by simpa using ha)

lemma wsOnly_collapse : ∀ (l : List Char) (b : Bool) (c : Char), c ∈ collapseWs b l →
    pyIsSpace c = true → c = ' ' := by
  intro l
  induction l with
  | nil => intro b c h; simp [collapseWs] at h
  | cons a rest ih =>
    intro b c h hc
    by_cases ha : pyIsSpace a = true
    · cases b with
      | true =>
        rw [collapseWs, if_pos ha, if_pos rfl] at h
        exact ih true c h hc
      | false =>
        rw [collapseWs, if_pos ha] at h
        simp only [Bool.false_eq_true, if_false] at h
        rcases List.mem_cons.mp h with rfl | h2
        · rfl
        · exact ih true c h2 hc
    · rw [collapseWs, if_neg ha] at h
      rcases List.mem_cons.mp h with rfl | h2
      · exact absurd hc (by simpa using ha)
      · exact ih false c h2 hc

lemma head_dropWhile_not (p : Char → Bool) : ∀ (l : List Char) (c : Char),
    (l.dropWhile p).head? = some c → p c = false := by
  intro l
  induction l with
  | nil => intro c h; simp [List.dropWhile] at h
  | cons a rest ih =>
    intro c h
    by_cases hp : p a = true
    · rw [List.dropWhile_cons, if_pos hp] at h
      exact ih c h
    · rw [List.dropWhile_cons, if_neg hp] at h
      simp at h
      rw [← h]
      simpa using hp

lemma stripBoth_head (l : List Char) (c : Char) (h : (stripBoth l).head? = some c) :
    pyIsSpace c = false := by
  unfold stripBoth at h
  obtain ⟨t, ht⟩ : (l.dropWhile pyIsSpace).reverse.dropWhile pyIsSpace <:+
      (l.dropWhile pyIsSpace).reverse := List.dropWhile_suffix pyIsSpace
  have hl : l.dropWhile pyIsSpace =
      ((l.dropWhile pyIsSpace).reverse.dropWhile pyIsSpace).reverse ++ t.reverse := by
    have := congrArg List.reverse ht
    simpa [List.reverse_append] using this.symm
  cases hs : ((l.dropWhile pyIsSpace).reverse.dropWhile pyIsSpace).reverse with
  | nil => rw [hs] at h; simp at h
  | cons x xs =>
    rw [hs] at h
    simp at h
    have hx : (l.dropWhile pyIsSpace).head? = some x := by
      rw [hl, hs]
      rfl
    rw [← h]
    exact head_dropWhile_not pyIsSpace l x hx

lemma normalizeWs_head (l : List Char) (c : Char) (h : (normalizeWs l).head? = some c) :
    pyIsSpace c = false := by
  unfold normalizeWs at h
  cases hs : stripBoth l with
  | nil => rw [hs] at h; simp [collapseWs] at h
  | cons a rest =>
    rw [hs] at h
    have ha : pyIsSpace a = false := stripBoth_head l a (by rw [hs]; rfl)
    rw [collapseWs, if_neg (by simp [ha])] at h
    simp at h
    rw [← h]
    exact ha

lemma noTwoWs_normalizeWs (l : List Char) : noTwoWs (normalizeWs l) = true :=
  noTwoWs_collapse (stripBoth l) false

lemma wsOnly_normalizeWs (l : List Char) (c : Char) (h : c ∈ normalizeWs l)
    (hc : pyIsSpace c = true) : c = ' ' :=
  wsOnly_collapse (stripBoth l) false c h hc

lemma splitSentFuel_ne_nil : ∀ (fuel : Nat) (prev : Option Char) (acc l : List Char),
    splitSentFuel fuel prev acc l ≠ [] := by
  intro fuel
  induction fuel with
  | zero => intro prev acc l; simp [splitSentFuel]
  | succ fuel ih =>
    intro prev acc l
    cases l with
    | nil => simp [splitSentFuel]
    | cons c rest =>
      rw [splitSentFuel]
      split_ifs
      · simp
      · exact ih _ _ _

lemma joinSents_cons (s : List Char) (rest : List (List Char)) (h : rest ≠ []) :
    joinSents (s :: rest) = s ++ ' ' :: joinSents rest := by
  cases rest with
  | nil => exact absurd rfl h
  | cons a l => rfl

lemma splitSentFuel_join : ∀ (fuel : Nat) (prev : Option Char) (acc l : List Char),
    noTwoWs l = true → (∀ c ∈ l, pyIsSpace c = true → c = ' ') →
    joinSents (splitSentFuel fuel prev acc l) = acc.reverse ++ l := by
  intro fuel
  induction fuel with
  | zero =>
    intro prev acc l _ _
    rfl
  | succ fuel ih =>
    intro prev acc l h1 h2
    cases l with
    | nil => simp [splitSentFuel, joinSents]
    | cons c rest =>
      rw [splitSentFuel]
      split_ifs with hg
      · have hwc : pyIsSpace c = true := by
          rcases (by simpa using hg : _ ∧ _) with ⟨⟨hws, _⟩, _⟩
          exact hws
        have hrest : rest ≠ [] := by
          intro he
          rw [he] at hg
          simp [classHead] at hg
        obtain ⟨r0, rest'⟩ : ∃ r0 rest', rest = r0 :: rest' := by
          cases rest with
          | nil => exact absurd rfl hrest
          | cons a b => exact ⟨a, b, rfl⟩
        obtain ⟨rest', rfl⟩ := rest'
        have hr0 : pyIsSpace r0 = false := noTwoWs_adj c r0 rest' h1 hwc
        have hdrop : (r0 :: rest').dropWhile pyIsSpace = r0 :: rest' := by
          rw [List.dropWhile_cons, if_neg (by simp [hr0])]
        rw [hdrop]
        rw [joinSents_cons _ _ (splitSentFuel_ne_nil _ _ _ _)]
        rw [ih (some c) [] (r0 :: rest') (noTwoWs_tail c _ h1)
          (fun x hx hwx => h2 x (List.mem_cons_of_mem c hx) hwx)]
        have hc' : c = ' ' := h2 c (List.mem_cons_self c _) hwc
        rw [hc']
        simp
      · rw [ih (some c) (c :: acc) rest (noTwoWs_tail c _ h1)
          (fun x hx hwx => h2 x (List.mem_cons_of_mem c hx) hwx)]
        simp

lemma splitSentFuel_first : ∀ (fuel : Nat) (prev : Option Char) (acc l : List Char),
    acc ≠ [] → ∃ t, (splitSentFuel fuel prev acc l).head? = some (acc.reverse ++ t) := by
  intro fuel
  induction fuel with
  | zero =>
    intro prev acc l _
    exact ⟨l, rfl⟩
  | succ fuel ih =>
    intro prev acc l h
    cases l with
    | nil => exact ⟨[], by simp [splitSentFuel]⟩
    | cons c rest =>
      rw [splitSentFuel]
      split_ifs with hg
      · exact ⟨[], by simp⟩
      · obtain ⟨t, ht⟩ := ih (some c) (c :: acc) rest (by simp)
        refine ⟨c :: t, ?_⟩
        rw [ht]
        simp

lemma splitSentFuel_head_class : ∀ (fuel : Nat) (prev : Option Char) (r0 : Char)
    (rest' : List Char), isClassChar r0 = true →
    ∃ s rest2, splitSentFuel fuel prev [] (r0 :: rest') = s :: rest2 ∧ s.head? = some r0 := by
  intro fuel prev r0 rest' hc
  cases fuel with
  | zero => exact ⟨r0 :: rest', [], rfl, rfl⟩
  | succ fuel =>
    rw [splitSentFuel]
    rw [if_neg (by simp [isClassChar_not_ws r0 hc])]
    obtain ⟨t, ht⟩ := splitSentFuel_first fuel (some r0) [r0] rest' (by simp)
    cases hs : splitSentFuel fuel (some r0) [r0] rest' with
    | nil => exact absurd hs (splitSentFuel_ne_nil _ _ _ _)
    | cons s rest2 =>
      rw [hs] at ht
      simp at ht
      exact ⟨s, rest2, rfl, by rw [ht]; rfl⟩

lemma punctPrev_some (prev : Option Char) (h : punctPrev prev = true) :
    ∃ p, prev = some p ∧ isPunctEnd p = true := by
  cases prev with
  | none => simp [punctPrev] at h
  | some p => exact ⟨p, rfl, h⟩

lemma boundary_acc_ne_nil (prev : Option Char) (acc : List Char) (hp : prevOk prev acc)
    (hg : punctPrev prev = true) : ∃ a rest, acc = a :: rest ∧ isPunctEnd a = true := by
  obtain ⟨p, rfl, hpp⟩ := punctPrev_some prev hg
  cases acc with
  | nil =>
    rcases hp with h | ⟨w, hw, hws⟩
    · cases h
    · have hpw : p = w := by injection hw
      rw [hpw] at hpp
      rw [isPunctEnd_not_ws w hpp] at hws
      cases hws
  | cons a rest =>
    have hpa : p = a := by
      have h2 : some p = some a := hp
      injection h2
    exact ⟨a, rest, rfl, by rw [← hpa]; exact hpp⟩

lemma splitSentFuel_chain : ∀ (fuel : Nat) (prev : Option Char) (acc l : List Char),
    noTwoWs l = true → prevOk prev acc →
    List.Chain' sentRel (splitSentFuel fuel prev acc l) := by
  intro fuel
  induction fuel with
  | zero =>
    intro prev acc l _ _
    simp [splitSentFuel]
  | succ fuel ih =>
    intro prev acc l h1 hp
    cases l with
    | nil => simp [splitSentFuel]
    | cons c rest =>
      rw [splitSentFuel]
      split_ifs with hg
      · obtain ⟨⟨hws, hpp⟩, hcl⟩ : (pyIsSpace c = true ∧ punctPrev prev = true) ∧
            classHead (rest.dropWhile pyIsSpace) = true := by simpa using hg
        obtain ⟨a, accRest, rfl, ha⟩ := boundary_acc_ne_nil prev acc hp hpp
        have hrest : ∃ r0 rest', rest = r0 :: rest' := by
          cases rest with
          | nil => simp [classHead] at hcl
          | cons x y => exact ⟨x, y, rfl⟩
        obtain ⟨r0, rest', rfl⟩ := hrest
        have hr0 : pyIsSpace r0 = false := noTwoWs_adj c r0 rest' h1 hws
        have hdrop : (r0 :: rest').dropWhile pyIsSpace = r0 :: rest' := by
          rw [List.dropWhile_cons, if_neg (by simp [hr0])]
        rw [hdrop] at hcl ⊢
        have hclr : isClassChar r0 = true := hcl
        obtain ⟨s, rest2, hs, hhead⟩ :=
          splitSentFuel_head_class fuel (some c) r0 rest' hclr
        rw [hs]
        refine List.Chain'.cons ?_ ?_
        · exact ⟨⟨a, by simp, ha⟩, ⟨r0, hhead, hclr⟩⟩
        · rw [← hs]
          exact ih (some c) [] (r0 :: rest') (noTwoWs_tail c _ h1) (Or.inr ⟨c, rfl, hws⟩)
      · exact ih (some c) (c :: acc) rest (noTwoWs_tail c _ h1) rfl

lemma hasTripleRev_cons_of (d : Char) (l : List Char) (h : hasTripleRev l = true) :
    hasTripleRev (d :: l) = true := by
  cases l with
  | nil => simp [hasTripleRev] at h
  | cons a l2 =>
    cases l2 with
    | nil => simp [hasTripleRev] at h
    | cons b l3 => simp [hasTripleRev, h]

lemma hasTripleRev_of_append (p w c : Char) (hP : isPunctEnd p = true) (hW : pyIsSpace w = true)
    (hC : isClassChar c = true) : ∀ (x y : List Char), hasTripleRev (x ++ c :: w :: p :: y) = true := by
  intro x
  induction x with
  | nil =>
    intro y
    simp [hasTripleRev, hP, hW, hC]
  | cons d x' ih =>
    intro y
    exact hasTripleRev_cons_of d _ (ih y)

lemma hasTripleRev_short (acc : List Char) (h : acc.length ≤ 2) : hasTripleRev acc = false := by
  match acc, h with
  | [], _ => rfl
  | [a], _ => rfl
  | [a, b], _ => rfl

lemma splitSentFuel_noBoundary : ∀ (fuel : Nat) (prev : Option Char) (acc l : List Char),
    l.length ≤ fuel → noTwoWs l = true → prevOk prev acc →
    hasTripleRev acc = false → straddleOk acc l →
    ∀ s ∈ splitSentFuel fuel prev acc l, hasTripleRev s.reverse = false := by
  intro fuel
  induction fuel with
  | zero =>
    intro prev acc l hf _ _ hA _ s hs
    have hl : l = [] := by
      cases l with
      | nil => rfl
      | cons a b => simp at hf
    subst hl
    simp [splitSentFuel] at hs
    subst hs
    simpa using hA
  | succ fuel ih =>
    intro prev acc l hf h1 hp hA hS s hs
    cases l with
    | nil =>
      simp [splitSentFuel] at hs
      subst hs
      simpa using hA
    | cons c rest =>
      rw [splitSentFuel] at hs
      split_ifs at hs with hg
      · obtain ⟨⟨hws, hpp⟩, hcl⟩ : (pyIsSpace c = true ∧ punctPrev prev = true) ∧
            classHead (rest.dropWhile pyIsSpace) = true := by simpa using hg
        rcases List.mem_cons.mp hs with rfl | hs2
        · simpa using hA
        · have hrest : ∃ r0 rest', rest = r0 :: rest' := by
            cases rest with
            | nil => simp [classHead] at hcl
            | cons x y => exact ⟨x, y, rfl⟩
          obtain ⟨r0, rest', rfl⟩ := hrest
          have hr0 : pyIsSpace r0 = false := noTwoWs_adj c r0 rest' h1 hws
          have hdrop : (r0 :: rest').dropWhile pyIsSpace = r0 :: rest' := by
            rw [List.dropWhile_cons, if_neg (by simp [hr0])]
          rw [hdrop] at hs2
          refine ih (some c) [] (r0 :: rest') ?_ (noTwoWs_tail c _ h1)
            (Or.inr ⟨c, rfl, hws⟩) rfl trivial s hs2
          simpa using Nat.le_of_succ_le_succ hf
      · refine ih (some c) (c :: acc) rest (Nat.le_of_succ_le_succ hf)
          (noTwoWs_tail c _ h1) rfl ?_ ?_ s hs
        · cases acc with
          | nil => exact hasTripleRev_short [c] (by simp)
          | cons a acc2 =>
            cases acc2 with
            | nil => exact hasTripleRev_short [c, a] (by simp)
            | cons b acc3 =>
              have hnotri : (isPunctEnd b && pyIsSpace a && isClassChar c) = false := by
                have hstr : ¬(isPunctEnd b = true ∧ pyIsSpace a = true ∧ isClassChar c = true) := hS
                cases hb : isPunctEnd b <;> cases ha : pyIsSpace a <;> cases hc : isClassChar c <;>
                  simp_all
              rw [hasTripleRev, hnotri]
              simpa using hA
        · cases acc with
          | nil =>
            cases rest with
            | nil => trivial
            | cons c2 rest2 => trivial
          | cons a acc2 =>
            cases rest with
            | nil => trivial
            | cons c2 rest2 =>
              show ¬(isPunctEnd a = true ∧ pyIsSpace c = true ∧ isClassChar c2 = true)
              have hpa : prev = some a := hp
              rintro ⟨hpun, hwsc, hclc2⟩
              apply hg
              have hd2 : (c2 :: rest2).dropWhile pyIsSpace = c2 :: rest2 := by
                rw [List.dropWhile_cons, if_neg (by simp [isClassChar_not_ws c2 hclc2])]
              rw [hd2]
              simp [hwsc, punctPrev, hpa, hpun, classHead, hclc2]

lemma splitSentFuel_nonws : ∀ (fuel : Nat) (prev : Option Char) (acc l : List Char),
    l.length ≤ fuel → noTwoWs l = true → prevOk prev acc →
    (acc = [] → ∃ c, l.head? = some c ∧ pyIsSpace c = false) →
    (acc ≠ [] → ∃ c ∈ acc, pyIsSpace c = false) →
    ∀ s ∈ splitSentFuel fuel prev acc l, ∃ c ∈ s, pyIsSpace c = false := by
  intro fuel
  induction fuel with
  | zero =>
    intro prev acc l hf _ _ hE hN s hs
    have hl : l = [] := by
      cases l with
      | nil => rfl
      | cons a b => simp at hf
    subst hl
    simp [splitSentFuel] at hs
    subst hs
    by_cases hacc : acc = []
    · obtain ⟨c, hc, -⟩ := hE hacc
      simp at hc
    · obtain ⟨c, hc, hcw⟩ := hN hacc
      exact ⟨c, List.mem_reverse.mpr hc, hcw⟩
  | succ fuel ih =>
    intro prev acc l hf h1 hp hE hN s hs
    cases l with
    | nil =>
      simp [splitSentFuel] at hs
      subst hs
      by_cases hacc : acc = []
      · obtain ⟨c, hc, -⟩ := hE hacc
        simp at hc
      · obtain ⟨c, hc, hcw⟩ := hN hacc
        exact ⟨c, List.mem_reverse.mpr hc, hcw⟩
    | cons c rest =>
      rw [splitSentFuel] at hs
      split_ifs at hs with hg
      · obtain ⟨⟨hws, hpp⟩, hcl⟩ : (pyIsSpace c = true ∧ punctPrev prev = true) ∧
            classHead (rest.dropWhile pyIsSpace) = true := by simpa using hg
        rcases List.mem_cons.mp hs with rfl | hs2
        · obtain ⟨a, accRest, rfl, ha⟩ := boundary_acc_ne_nil prev acc hp hpp
          exact ⟨a, by simp, isPunctEnd_not_ws a ha⟩
        · have hrest : ∃ r0 rest', rest = r0 :: rest' := by
            cases rest with
            | nil => simp [classHead] at hcl
            | cons x y => exact ⟨x, y, rfl⟩
          obtain ⟨r0, rest', rfl⟩ := hrest
          have hr0 : pyIsSpace r0 = false := noTwoWs_adj c r0 rest' h1 hws
          have hdrop : (r0 :: rest').dropWhile pyIsSpace = r0 :: rest' := by
            rw [List.dropWhile_cons, if_neg (by simp [hr0])]
          rw [hdrop] at hs2
          exact ih (some c) [] (r0 :: rest') (by simpa using Nat.le_of_succ_le_succ hf)
            (noTwoWs_tail c _ h1) (Or.inr ⟨c, rfl, hws⟩)
            (fun _ => ⟨r0, rfl, hr0⟩) (fun h => absurd rfl h) s hs2
      · refine ih (some c) (c :: acc) rest (Nat.le_of_succ_le_succ hf)
          (noTwoWs_tail c _ h1) rfl (fun h => by cases h) ?_ s hs
        intro _
        by_cases hacc : acc = []
        · obtain ⟨c0, hc0, hcw⟩ := hE hacc
          have hcc : c = c0 := by simpa using hc0
          exact ⟨c, List.mem_cons_self c _, by rw [hcc]; exact hcw⟩
        · obtain ⟨c0, hc0, hcw⟩ := hN hacc
          exact ⟨c0, List.mem_cons_of_mem c hc0, hcw⟩

/-- Claim C7: the segmenter first collapses whitespace runs to single spaces
and trims the ends, and returns zero sentences when the input normalizes to
the empty string; otherwise it splits the normalized text exactly at the
positions where a sentence-ending punctuation mark is immediately followed by
whitespace that is immediately followed by an uppercase letter, digit or
quote: rejoining the sentences with one space per boundary restores the
normalized text, each boundary separates a sentence ending in `[.!?]` from one
starting with a `[A-Z0-9"']` character, and no split position is missed (no
sentence contains an internal punctuation–whitespace–class triple). -/
theorem c7_segmenter :
    (∀ text : String, sentence_segment text = (segmentL text.data).map (fun l => (⟨l⟩ : String))) ∧
    (∀ l : List Char, normalizeWs l = [] → segmentL l = []) ∧
    (∀ l : List Char, normalizeWs l ≠ [] → joinSents (segmentL l) = normalizeWs l) ∧
    (∀ l : List Char, List.Chain' sentRel (segmentL l)) ∧
    (∀ l : List Char, ∀ s ∈ segmentL l, ∀ (a b : List Char) (p w c : Char),
      s = a ++ p :: w :: c :: b →
      ¬(isPunctEnd p = true ∧ pyIsSpace w = true ∧ isClassChar c = true)) := by
  refine ⟨fun _ => rfl, ?_, ?_, ?_, ?_⟩
  · intro l h
    simp [segmentL, h]
  · intro l h
    unfold segmentL
    rw [if_neg (by simpa [List.isEmpty_iff] using h)]
    have := splitSentFuel_join (normalizeWs l).length none [] (normalizeWs l)
      (noTwoWs_normalizeWs l) (fun c hc hw => wsOnly_normalizeWs l c hc hw)
    simpa using this
  · intro l
    unfold segmentL
    split_ifs with he
    · simp
    · exact splitSentFuel_chain (normalizeWs l).length none [] (normalizeWs l)
        (noTwoWs_normalizeWs l) (Or.inl rfl)
  · intro l s hs a b p w c hdec
    rintro ⟨hP, hW, hC⟩
    have hfalse : hasTripleRev s.reverse = false := by
      unfold segmentL at hs
      split_ifs at hs with he
      · simp at hs
      · exact splitSentFuel_noBoundary (normalizeWs l).length none [] (normalizeWs l)
          le_rfl (noTwoWs_normalizeWs l) (Or.inl rfl) rfl trivial s hs
    have htrue := hasTripleRev_of_append p w c hP hW hC b.reverse a.reverse
    rw [hdec, show (a ++ p :: w :: c :: b).reverse = b.reverse ++ c :: w :: p :: a.reverse by
      simp] at hfalse
    rw [htrue] at hfalse
    cases hfalse

/-- Witness for C7 at the concrete document "A. B c": rejoining its two
sentences with the consumed boundary space restores the normalized text. -/
theorem c7_segmenter_witness :
    joinSents (segmentL ("A. B c").data) = normalizeWs ("A. B c").data :=
  c7_segmenter.2.2.1 ("A. B c").data (by decide)

lemma segmentL_sent_nonws (l : List Char) : ∀ s ∈ segmentL l, ∃ c ∈ s, pyIsSpace c = false := by
  intro s hs
  unfold segmentL at hs
  split_ifs at hs with he
  · simp at hs
  · have hne : normalizeWs l ≠ [] := by simpa [List.isEmpty_iff] using he
    obtain ⟨c0, rest, hcons⟩ : ∃ c0 rest, normalizeWs l = c0 :: rest := by
      cases hn : normalizeWs l with
      | nil => exact absurd hn hne
      | cons a b => exact ⟨a, b, rfl⟩
    refine splitSentFuel_nonws (normalizeWs l).length none [] (normalizeWs l) le_rfl
      (noTwoWs_normalizeWs l) (Or.inl rfl) ?_ (fun h => absurd rfl h) s hs
    intro _
    exact ⟨c0, by rw [hcons]; rfl, normalizeWs_head l c0 (by rw [hcons]; rfl)⟩

/-! ## Claim C10: every sentence tokenizes to at least one token -/

lemma matchTokenAt_isSome (c : Char) (rest : List Char) (h : pyIsSpace c = false) :
    ∃ tok rest2, matchTokenAt (c :: rest) = some (tok, rest2) := by
  simp only [matchTokenAt]
  split_ifs with h1 h2 h3
  · split
    · split_ifs <;> exact ⟨_, _, rfl⟩
    · exact ⟨_, _, rfl⟩
  · split
    · split_ifs <;> exact ⟨_, _, rfl⟩
    · exact ⟨_, _, rfl⟩
  · exact absurd h3 (by simp [h])
  · exact ⟨_, _, rfl⟩

lemma matchTokenAt_ws (c : Char) (rest : List Char) (h : pyIsSpace c = true) :
    matchTokenAt (c :: rest) = none := by
  simp only [matchTokenAt]
  rw [if_neg (by simp [ws_not_alpha c h]), if_neg (by simp [ws_not_digit c h]), if_pos h]

lemma tokenizeFuel_ne_nil : ∀ (fuel : Nat) (l : List Char), l.length ≤ fuel →
    (∃ c ∈ l, pyIsSpace c = false) → tokenizeFuel fuel l ≠ [] := by
  intro fuel
  induction fuel with
  | zero =>
    intro l hf hc
    have hl : l = [] := by
      cases l with
      | nil => rfl
      | cons a b => simp at hf
    subst hl
    simp at hc
  | succ fuel ih =>
    intro l hf hc
    cases l with
    | nil => simp at hc
    | cons c rest =>
      rw [tokenizeFuel]
      cases hw : pyIsSpace c with
      | false =>
        obtain ⟨tok, rest2, hm⟩ := matchTokenAt_isSome c rest hw
        rw [hm]
        simp
      | true =>
        rw [matchTokenAt_ws c rest hw]
        apply ih rest (Nat.le_of_succ_le_succ hf)
        obtain ⟨x, hx, hxw⟩ := hc
        rcases List.mem_cons.mp hx with rfl | hx2
        · rw [hw] at hxw; cases hxw
        · exact ⟨x, hx2, hxw⟩

lemma tokenize_ne_nil (sent : String) (h : ∃ c ∈ sent.data, pyIsSpace c = false) :
    tokenize sent ≠ [] := by
  unfold tokenize
  intro hmap
  exact tokenizeFuel_ne_nil sent.data.length sent.data le_rfl h (List.map_eq_nil_iff.mp hmap)

lemma manualTagTokens_length (resp : Nat → String) (toks : List String) :
    ∀ (st : List (String × String)) (p : Nat),
      (manualTagTokens resp toks st p).1.length = toks.length := by
  induction toks with
  | nil => intro st p; rfl
  | cons tok rest ih =>
    intro st p
    simp only [manualTagTokens, List.length_cons]
    rw [ih]

lemma runSentences_other_cons (resp : Nat → String) (d : List (String × String)) (mode : String)
    (si : Nat) (sent : String) (rest : List String) (s : PipeState)
    (hm : (mode == "manual") = false) :
    runSentences resp d mode si (sent :: rest) s =
      (((tokenize sent).map (fun t => (t, heuristic_pos t, "heuristic"))).map (mkRow d si sent) ::
        (runSentences resp d mode (si + 1) rest s).1,
       (runSentences resp d mode (si + 1) rest s).2) := by
  simp only [runSentences, hm, Bool.false_eq_true, if_false]

lemma runSentences_rows_ne_nil (resp : Nat → String) (d : List (String × String)) (mode : String) :
    ∀ (si : Nat) (sents : List String) (s : PipeState),
      (∀ sent ∈ sents, tokenize sent ≠ []) →
      ∀ rows ∈ (runSentences resp d mode si sents s).1, rows ≠ [] := by
  intro si sents
  induction sents generalizing si with
  | nil =>
    intro s _ rows h
    simp [runSentences] at h
  | cons sent rest ih =>
    intro s h rows hrows
    have hne : tokenize sent ≠ [] := h sent (List.mem_cons_self _ _)
    by_cases hm : (mode == "manual") = true
    · have hmode : mode = "manual" := by simpa using hm
      subst hmode
      rw [runSentences_manual_cons] at hrows
      rcases List.mem_cons.mp hrows with rfl | hmem
      · intro he
        apply hne
        have hlen := congrArg List.length he
        rw [List.length_map, manualTagTokens_length, List.length_nil] at hlen
        exact List.length_eq_zero.mp hlen
      · exact ih (si + 1) _ (fun x hx => h x (List.mem_cons_of_mem _ hx)) rows hmem
    · rw [runSentences_other_cons resp d mode si sent rest s (by simpa using hm)] at hrows
      rcases List.mem_cons.mp hrows with rfl | hmem
      · intro he
        apply hne
        have hlen := congrArg List.length he
        rw [List.length_map, List.length_map, List.length_nil] at hlen
        exact List.length_eq_zero.mp hlen
      · exact ih (si + 1) _ (fun x hx => h x (List.mem_cons_of_mem _ hx)) rows hmem

lemma write_tsv_isSome : ∀ (results : List (List Row)), (∀ rows ∈ results, rows ≠ []) →
    (write_tsv results).isSome = true := by
  intro results
  induction results with
  | nil => intro _; rfl
  | cons rows rest ih =>
    intro h
    cases hrows : rows with
    | nil => exact absurd hrows (h rows (List.mem_cons_self _ _))
    | cons r rs =>
      subst hrows
      have hrec := ih (fun x hx => h x (List.mem_cons_of_mem _ hx))
      cases hw : write_tsv rest with
      | none => rw [hw] at hrec; simp at hrec
      | some more =>
        have heq : write_tsv ((r :: rs) :: rest) =
            match write_tsv rest with
            | none => none
            | some more2 =>
              some ((("Sentence " ++ toString r.si ++ ": " ++ r.sent) ::
                     "token\tpos\tlemma\tremoved" :: (r :: rs).map rowLine ++ [""]) ++ more2) := rfl
        rw [heq, hw]
        rfl

/-- Claim C10: every sentence produced by the segmenter contains a
non-whitespace character, so the tokenizer yields at least one token for it;
consequently every per-sentence list of annotation rows built by the pipeline
is non-empty, and the report writer's access to the first row of each sentence
block never fails (`write_tsv` is defined on the pipeline's output). -/
theorem c10_first_row_access_safe :
    ∀ (resp : Nat → String) (text : String) (d : List (String × String)) (mode : String)
      (s : PipeState),
      (∀ sent ∈ sentence_segment text,
        (∃ c ∈ sent.data, pyIsSpace c = false) ∧ tokenize sent ≠ []) ∧
      (∀ rows ∈ (run_pipeline resp text d mode s).1, rows ≠ []) ∧
      (write_tsv (run_pipeline resp text d mode s).1).isSome = true := by
  intro resp text d mode s
  have hsent : ∀ sent ∈ sentence_segment text, ∃ c ∈ sent.data, pyIsSpace c = false := by
    intro sent hm
    unfold sentence_segment at hm
    obtain ⟨lc, hlc, rfl⟩ := List.mem_map.mp hm
    exact segmentL_sent_nonws text.data lc hlc
  have htok : ∀ sent ∈ sentence_segment text, tokenize sent ≠ [] :=
    fun sent hm => tokenize_ne_nil sent (hsent sent hm)
  have hrows : ∀ rows ∈ (run_pipeline resp text d mode s).1, rows ≠ [] :=
    runSentences_rows_ne_nil resp d mode 1 (sentence_segment text) s htok
  exact ⟨fun sent hm => ⟨hsent sent hm, htok sent hm⟩, hrows,
    write_tsv_isSome _ hrows⟩

/-- Witness for C10 at a concrete two-sentence document. -/
theorem c10_first_row_access_safe_witness :
    (write_tsv (run_pipeline (fun _ => "") "Hi there. Bye." [] "heuristic" ⟨[], 0, 0⟩).1).isSome =
      true :=
  (c10_first_row_access_safe (fun _ => "") "Hi there. Bye." [] "heuristic" ⟨[], 0, 0⟩).2.2

end Nlp
